import Mathlib

/-!
Verification of the short-link service core (Go sources under `internal/`).

This file gives a shallow embedding of the parts of the program that the
checked claims are about:

* `internal/utils/shortcode.go` — Base62 encoding/decoding of Snowflake IDs;
* `internal/filter/bloom.go` — the existence (Bloom) filter wrapper;
* `internal/service/url_service.go` — the resolution cascade `GetOriginalURL`;
* `internal/middleware/ratelimit.go` — the rate limiter: configuration,
  construction, the three check algorithms, and the Gin middleware wrapper.

Machine integers are modelled as `Nat`/`Int` with explicit wrapping where the
source can overflow; Go `float64` token counts are modelled as `ℚ` (the values
reached in the proved statements are far from any floating-point anomaly, and
the discrepancies established below are of magnitude ≥ 1, far above any
rounding error of `float64` at these scales); Redis state is modelled as an
explicit `Store` record threaded through each operation.
-/

set_option autoImplicit false

namespace ShortLink

/-! ### Base62 encoding (`internal/utils/shortcode.go`) -/

/-- The digit alphabet, exactly the Go constant `base62Chars`. -/
def base62Chars : List Char :=
  "0123456789abcdefghijklmnopqrstuvwxyzABCDEFGHIJKLMNOPQRSTUVWXYZ".data

/-- Two's-complement wrap-around of 64-bit signed arithmetic: Go `int64`
addition/multiplication wraps modulo `2^64` into `[-2^63, 2^63)`. -/
def wrap64 (x : Int) : Int :=
  (x + 2 ^ 63) % 2 ^ 64 - 2 ^ 63

/-- One step of the digit-emitting loop in `EncodeBase62`, written with an
explicit structural fuel so that it is structurally recursive; `encodeLoop`
below supplies enough fuel for the loop to run to completion, exactly as the
Go `for num > 0` loop does. Digits are emitted least-significant first. -/
def encodeDigitsF : Nat → Nat → List Char
  | _, 0 => []
  | 0, _ + 1 => []
  | f + 1, n + 1 =>
    base62Chars.getD ((n + 1) % 62) ' ' :: encodeDigitsF f ((n + 1) / 62)

/-- The digit-emitting loop of `EncodeBase62` (`for num > 0 { ... }`):
least-significant digit first. -/
def encodeLoop (n : Nat) : List Char :=
  encodeDigitsF n n

/-- `EncodeBase62` from `shortcode.go`: emit base-62 digits least-significant
first, then reverse the string (`reverseString`). A zero input returns the
single character `base62Chars[0]`; the Go loop does not run for negative
inputs, so they encode to the empty string, which `toNat` reproduces. -/
def EncodeBase62 (num : Int) : String :=
  if num = 0 then String.mk [base62Chars.getD 0 ' ']
  else String.mk (encodeLoop num.toNat).reverse

/-- The `switch` in `DecodeBase62` mapping a character to its digit value;
`none` is the `default` branch (invalid character). -/
def charValue (c : Char) : Option Int :=
  if '0' ≤ c ∧ c ≤ '9' then some ((c.toNat : Int) - ('0'.toNat : Int))
  else if 'a' ≤ c ∧ c ≤ 'z' then some ((c.toNat : Int) - ('a'.toNat : Int) + 10)
  else if 'A' ≤ c ∧ c ≤ 'Z' then some ((c.toNat : Int) - ('A'.toNat : Int) + 36)
  else none

/-- The accumulation loop of `DecodeBase62`: `num = num*base + value`, with Go
`int64` wrap-around made explicit, and the `default: return 0` early exit. -/
def decodeLoop : List Char → Int → Int
  | [], num => num
  | c :: rest, num =>
    match charValue c with
    | none => 0
    | some v => decodeLoop rest (wrap64 (num * 62 + v))

/-- `DecodeBase62` from `shortcode.go`. -/
def DecodeBase62 (s : String) : Int :=
  decodeLoop s.data 0

/-! ### Existence filter (`internal/filter/bloom.go`)

Modelled from the spec: the underlying bit-array implementation lives in the
external `bits-and-blooms/bloom` dependency, not under `src/`; following §3
"Filter State" and §4.1 it is a fixed-size bit array plus a derived family of
hash functions — `Add` sets the `nhash` bits selected by the hashes of the
key, `Test` reads exactly those bits, `Clear` resets every bit, and no
operation ever clears an individual bit. The wrapper methods of `bloom.go`
delegate to these operations one-to-one (its mutex serialises them, so the
sequential model below is faithful). The hash family is an arbitrary
parameter: nothing below depends on its values. -/
structure BloomFilter where
  nbits : Nat
  nhash : Nat
  hash : Nat → String → Nat
  bits : Nat → Bool

namespace BloomFilter

/-- Bit positions probed for a key: `hash i key mod nbits` for each of the
`nhash` hash functions. -/
def positions (bf : BloomFilter) (key : String) : List Nat :=
  (List.range bf.nhash).map fun i => bf.hash i key % bf.nbits

/-- `Add` from `bloom.go`: set every probed bit. -/
def Add (bf : BloomFilter) (shortCode : String) : BloomFilter :=
  { bf with bits := fun j => bf.bits j || (bf.positions shortCode).contains j }

/-- `Test` from `bloom.go`: the key is possibly present iff every probed bit
is set. -/
def Test (bf : BloomFilter) (shortCode : String) : Bool :=
  (bf.positions shortCode).all fun j => bf.bits j

/-- `AddBatch` from `bloom.go`: add each code in order. -/
def AddBatch (bf : BloomFilter) (shortCodes : List String) : BloomFilter :=
  shortCodes.foldl Add bf

/-- `Clear` from `bloom.go`: reset all bits. -/
def Clear (bf : BloomFilter) : BloomFilter :=
  { bf with bits := fun _ => false }

end BloomFilter

/-- The operations a client may perform on the filter, for stating
histories of calls. -/
inductive FilterOp where
  | add (key : String)
  | addBatch (keys : List String)
  | clear
deriving DecidableEq

/-- Apply one operation. -/
def applyFilterOp (bf : BloomFilter) : FilterOp → BloomFilter
  | .add k => bf.Add k
  | .addBatch ks => bf.AddBatch ks
  | .clear => bf.Clear

/-- Run a history of filter operations left to right. -/
def runFilterOps (bf : BloomFilter) (ops : List FilterOp) : BloomFilter :=
  ops.foldl applyFilterOp bf

/-- `k` is added somewhere in the history (via `Add` or inside an
`AddBatch`). -/
def addsKey (k : String) : FilterOp → Prop
  | .add k2 => k = k2
  | .addBatch ks => k ∈ ks
  | .clear => False

/-- Growth order on filters: same geometry and hash family, and every set bit
stays set. `Add`/`AddBatch` only grow a filter in this order. -/
def FilterLE (b1 b2 : BloomFilter) : Prop :=
  b1.nbits = b2.nbits ∧ b1.nhash = b2.nhash ∧ b1.hash = b2.hash ∧
    ∀ j, b1.bits j = true → b2.bits j = true

/-! ### The shared key-value store (Redis), as seen by the rate limiter

The store holds, per key: an integer counter (`INCR`; an absent key counts
from 0, as in Redis), a sorted set of ordered event timestamps (`ZADD` /
`ZREMRANGEBYSCORE` / `ZCARD`; the code uses the nanosecond timestamp as both
score and member, so a `Finset ℤ` captures the content), the two token-bucket
scalars (stored by the code as strings via `%.2f` / `%d` and parsed back with
defaults on failure; modelled as typed optional values, with the `%.2f`
rounding made explicit by `roundCent`), and a TTL (seconds). -/
structure Store where
  counters : String → Nat
  zsets : String → Finset Int
  tokens : String → Option ℚ
  lastRefill : String → Option Int
  ttl : String → Option Int

/-- A store with no keys set. -/
def Store.empty : Store :=
  { counters := fun _ => 0
    zsets := fun _ => ∅
    tokens := fun _ => none
    lastRefill := fun _ => none
    ttl := fun _ => none }

/-- Nanoseconds per second, for `time.Time` unit conversions. -/
def nsPerSec : Int := 1000000000

/-- Seconds from the Go zero `time.Time` (January 1, year 1 UTC) to the Unix
epoch; `time.Time.Truncate` rounds down to a multiple of the duration since
the zero time, not since the Unix epoch. -/
def goZeroGap : Int := 62135596800

/-- `now.Truncate(window).Unix()` for a whole-second Unix time `now` and a
whole-second `window` (every construction site builds the window as
`time.Duration(seconds) * time.Second`, so the sub-second parts of both are
zero and second granularity is exact). Go returns `t` unchanged when the
duration is not positive. -/
def truncateUnix (now w : Int) : Int :=
  if w ≤ 0 then now else w * ((now + goZeroGap) / w) - goZeroGap

/-- Go `int64(x)` conversion of a numeric value: truncation toward zero. -/
def truncToZero (q : ℚ) : Int :=
  if 0 ≤ q then ⌊q⌋ else -⌊-q⌋

/-- `fmt.Sprintf("%.2f", x)` followed by `strconv.ParseFloat`: the persisted
token count keeps two decimal places. (Go rounds ties to even; `round` rounds
ties up — the two differ only at exact half-cent values, which no statement
below goes near.) -/
def roundCent (q : ℚ) : ℚ :=
  (round (q * 100) : ℤ) / 100

/-! ### Rate limiter (`internal/middleware/ratelimit.go`) -/

/-- The three strategy constants; in Go `RateLimitStrategy` is a string type,
so the model keeps strings (an unrecognised string falls through to the
`default` branch of `checkRateLimit`, i.e. fixed window, as in the source). -/
def FixedWindow : String := "fixed_window"

/-- Sliding-window strategy constant. -/
def SlidingWindow : String := "sliding_window"

/-- Token-bucket strategy constant. -/
def TokenBucket : String := "token_bucket"

/-- An incoming request, reduced to the fields the rate limiter reads from
the Gin context. -/
structure Request where
  clientIP : String
  path : String

/-- `RateLimitConfig`: strategy, numeric limit, window (whole seconds — every
construction site uses `time.Duration(n) * time.Second`), and the three
optional strategy functions (`nil` in Go is `none` here). The error handler
writes a response; its observable effect is recorded by the middleware
outcome below, so its value carries no information. -/
structure RateLimitConfig where
  strategy : String
  limit : Int
  window : Int
  keyFunc : Option (Request → String) := none
  errorHandler : Option (Request → Unit) := none
  skipFunc : Option (Request → Bool) := none

/-- The default key function installed by `NewRateLimiter`:
`fmt.Sprintf("rate_limit:%s:%s", c.ClientIP(), c.Request.URL.Path)`. -/
def defaultKeyFunc (c : Request) : String :=
  "rate_limit:" ++ c.clientIP ++ ":" ++ c.path

/-- The default error handler (writes the 429 JSON body; no further
observable effect in the model). -/
def defaultErrorHandler : Request → Unit :=
  fun _ => ()

/-- The default skip function: skip nothing. -/
def defaultSkipFunc : Request → Bool :=
  fun _ => false

/-- `RateLimiter`: the constructed limiter (the Redis client handle carries
no state of its own and is represented by the `Store` values threaded through
the checks). -/
structure RateLimiter where
  config : RateLimitConfig

/-- `NewRateLimiter`: fills in defaults for the `nil` function fields and
returns the limiter. The Go function performs no validation of `Limit` or
`Window` and has no failure path. -/
def NewRateLimiter (config : RateLimitConfig) : RateLimiter :=
  { config :=
      { config with
        keyFunc := some (config.keyFunc.getD defaultKeyFunc)
        errorHandler := some (config.errorHandler.getD defaultErrorHandler)
        skipFunc := some (config.skipFunc.getD defaultSkipFunc) } }

/-- Result of `checkRateLimit`: either `(allowed, remaining, resetTime)` or a
transport error (`err != nil`, modelled by the `storeErr` flag each check
receives — a failing `pipe.Exec` returns the error before any result is
read). -/
inductive CheckResult where
  | ok (allowed : Bool) (remaining : Int) (resetAt : Int)
  | err
deriving DecidableEq

/-- The per-bucket Redis key of the fixed-window counter:
`fmt.Sprintf("%s:%d", key, windowStart)`. -/
def fixedWindowKey (cfg : RateLimitConfig) (key : String) (now : Int) : String :=
  key ++ ":" ++ toString (truncateUnix now cfg.window)

/-- `fixedWindowCheck`: truncate `now` to the window to get the bucket start,
atomically `INCR` the per-bucket counter and set its expiry to `2×window` in
one pipeline, then compare the incremented count against the limit.
`now` is in Unix seconds. -/
def fixedWindowCheck (cfg : RateLimitConfig) (key : String) (now : Int)
    (st : Store) (storeErr : Bool) : CheckResult × Store :=
  if storeErr then (.err, st) else
  let windowStart := truncateUnix now cfg.window
  let windowKey := fixedWindowKey cfg key now
  let count := st.counters windowKey + 1
  let st1 :=
    { st with
      counters := Function.update st.counters windowKey count
      ttl := Function.update st.ttl windowKey (some (2 * cfg.window)) }
  let resetTime := windowStart + cfg.window
  let allowed : Bool := (count : Int) ≤ cfg.limit
  let remaining := max 0 (cfg.limit - count)
  (.ok allowed remaining resetTime, st1)

/-- `slidingWindowCheck`: in one pipeline, remove entries with score in
`[0, now − window]` (`ZREMRANGEBYSCORE key "0" windowStart`), `ZADD` the
current nanosecond timestamp, read `ZCARD`, and refresh the expiry to
`2×window`. `nowNs` is in Unix nanoseconds; the reset time is reported in
Unix seconds (`now.Add(window).Unix()`). -/
def slidingWindowCheck (cfg : RateLimitConfig) (key : String) (nowNs : Int)
    (st : Store) (storeErr : Bool) : CheckResult × Store :=
  if storeErr then (.err, st) else
  let wNs := cfg.window * nsPerSec
  let windowStart := nowNs - wNs
  let afterAdd := insert nowNs ((st.zsets key).filter fun t => ¬(0 ≤ t ∧ t ≤ windowStart))
  let count := afterAdd.card
  let st1 :=
    { st with
      zsets := Function.update st.zsets key afterAdd
      ttl := Function.update st.ttl key (some (2 * cfg.window)) }
  let resetTime := (nowNs + wNs) / nsPerSec
  let allowed : Bool := (count : Int) ≤ cfg.limit
  let remaining := max 0 (cfg.limit - count)
  (.ok allowed remaining resetTime, st1)

/-- `tokenBucketCheck`: read the two scalars (the first pipeline's errors are
discarded — missing or unparsable values fall back to a full bucket at
`now`), refill at `limit/window` tokens per second capped at the capacity,
consume one token if at least one is available, persist both scalars with
`2×window` expiry, and report the time until the bucket refills back to one
token. `now` is in Unix seconds. -/
def tokenBucketCheck (cfg : RateLimitConfig) (key : String) (now : Int)
    (st : Store) (storeErr : Bool) : CheckResult × Store :=
  if storeErr then (.err, st) else
  let tokensKey := key ++ ":tokens"
  let lastRefillKey := key ++ ":last_refill"
  let refillRate : ℚ := (cfg.limit : ℚ) / (cfg.window : ℚ)
  let tokens0 : ℚ := (st.tokens tokensKey).getD (cfg.limit : ℚ)
  let lastRefill : Int := (st.lastRefill lastRefillKey).getD now
  let elapsed : Int := now - lastRefill
  let tokens1 : ℚ := tokens0 + (elapsed : ℚ) * refillRate
  let tokens2 : ℚ := if tokens1 > (cfg.limit : ℚ) then (cfg.limit : ℚ) else tokens1
  let allowed : Bool := 1 ≤ tokens2
  let tokens3 : ℚ := if allowed then tokens2 - 1 else tokens2
  let st1 :=
    { st with
      tokens := Function.update st.tokens tokensKey (some (roundCent tokens3))
      lastRefill := Function.update st.lastRefill lastRefillKey (some now)
      ttl := Function.update
        (Function.update st.ttl tokensKey (some (2 * cfg.window)))
        lastRefillKey (some (2 * cfg.window)) }
  let resetTime := if tokens3 < 1 then now + truncToZero ((1 - tokens3) / refillRate) else now
  let remaining := max 0 (truncToZero tokens3)
  (.ok allowed remaining resetTime, st1)

/-- The token count left after one `tokenBucketCheck` at `now` — after the
refill (capped at capacity) and the possible consumption of one token; the
reset-time and remaining computations of the check are functions of this
value. -/
def tokensAfterCheck (cfg : RateLimitConfig) (key : String) (now : Int) (st : Store) : ℚ :=
  let refillRate : ℚ := (cfg.limit : ℚ) / (cfg.window : ℚ)
  let tokens0 : ℚ := (st.tokens (key ++ ":tokens")).getD (cfg.limit : ℚ)
  let lastRefill : Int := (st.lastRefill (key ++ ":last_refill")).getD now
  let tokens1 : ℚ := tokens0 + ((now - lastRefill : Int) : ℚ) * refillRate
  let tokens2 : ℚ := if tokens1 > (cfg.limit : ℚ) then (cfg.limit : ℚ) else tokens1
  if (1 : ℚ) ≤ tokens2 then tokens2 - 1 else tokens2

/-- `checkRateLimit`: dispatch on the strategy string; any unrecognised
value falls through to fixed window, as in the Go `switch`. The middleware
observes time as Unix nanoseconds; fixed window and token bucket use it at
second granularity (`time.Now()` / `.Unix()`). -/
def checkRateLimit (cfg : RateLimitConfig) (key : String) (nowNs : Int)
    (st : Store) (storeErr : Bool) : CheckResult × Store :=
  if cfg.strategy = FixedWindow then fixedWindowCheck cfg key (nowNs / nsPerSec) st storeErr
  else if cfg.strategy = SlidingWindow then slidingWindowCheck cfg key nowNs st storeErr
  else if cfg.strategy = TokenBucket then tokenBucketCheck cfg key (nowNs / nsPerSec) st storeErr
  else fixedWindowCheck cfg key (nowNs / nsPerSec) st storeErr

/-- What one pass through the middleware did to the request. -/
structure Outcome where
  checked : Bool
  proceeded : Bool
  errorHandlerCalled : Bool
  aborted : Bool
  headers : Option (Int × Int × Int)
  retryAfter : Option Int
deriving DecidableEq

/-- One execution of the closure returned by `Middleware()` (steps 1–7 of
the source): skip check, key computation, rate-limit check, fail-open on
store error, header attachment, and the allow/deny branch. The function
fields are read through the same defaults `NewRateLimiter` installs, which
is what every reachable limiter contains. -/
def middlewareStep (rl : RateLimiter) (c : Request) (nowNs : Int) (st : Store)
    (storeErr : Bool) : Outcome × Store :=
  let cfg := rl.config
  if (cfg.skipFunc.getD defaultSkipFunc) c then
    ({ checked := false, proceeded := true, errorHandlerCalled := false,
       aborted := false, headers := none, retryAfter := none }, st)
  else
    let key := (cfg.keyFunc.getD defaultKeyFunc) c
    match checkRateLimit cfg key nowNs st storeErr with
    | (.err, st1) =>
      ({ checked := true, proceeded := true, errorHandlerCalled := false,
         aborted := false, headers := none, retryAfter := none }, st1)
    | (.ok allowed remaining resetAt, st1) =>
      let hdrs := some (cfg.limit, remaining, resetAt)
      if allowed then
        ({ checked := true, proceeded := true, errorHandlerCalled := false,
           aborted := false, headers := hdrs, retryAfter := none }, st1)
      else
        ({ checked := true, proceeded := false, errorHandlerCalled := true,
           aborted := true, headers := hdrs,
           retryAfter := some (max 0 (resetAt - nowNs / nsPerSec)) }, st1)

/-- Run the middleware over a sequence of requests (request, time, store-error
flag), threading the store. -/
def runMiddleware (rl : RateLimiter) :
    List (Request × Int × Bool) → Store → List Outcome × Store
  | [], st => ([], st)
  | (c, now, e) :: rest, st =>
    let (o, st1) := middlewareStep rl c now st e
    let (os, st2) := runMiddleware rl rest st1
    (o :: os, st2)

/-- Fold `fixedWindowCheck` over a list of check times (no store errors),
keeping only the store; used to state the limit-exhaustion property. -/
def runFixedChecks (cfg : RateLimitConfig) (key : String) :
    List Int → Store → Store
  | [], st => st
  | now :: rest, st => runFixedChecks cfg key rest (fixedWindowCheck cfg key now st false).2

/-! ### Atomic store commands and interleavings (§5 ordering guarantees)

Each pipelined check issues a fixed sequence of store commands; Redis applies
every individual command atomically, so a concurrent execution of two checks
is an interleaving of their command sequences. -/
inductive Cmd where
  | incr (k : String)
  | expire (k : String) (d : Int)
  | zremrange (k : String) (lo hi : Int)
  | zadd (k : String) (t : Int)
  | zcard (k : String)
deriving DecidableEq

/-- Effect of one command on the store (`zcard` is a pure read). -/
def applyCmd (st : Store) : Cmd → Store
  | .incr k => { st with counters := Function.update st.counters k (st.counters k + 1) }
  | .expire k d => { st with ttl := Function.update st.ttl k (some d) }
  | .zremrange k lo hi =>
    { st with zsets := Function.update st.zsets k ((st.zsets k).filter fun t => ¬(lo ≤ t ∧ t ≤ hi)) }
  | .zadd k t => { st with zsets := Function.update st.zsets k (insert t (st.zsets k)) }
  | .zcard _ => st

/-- Apply a command sequence left to right. -/
def applyCmds (st : Store) : List Cmd → Store
  | [] => st
  | c :: rest => applyCmds (applyCmd st c) rest

/-- The command sequence one `fixedWindowCheck` sends: `INCR` then `EXPIRE`
on the per-bucket key. -/
def fixedWindowCmds (cfg : RateLimitConfig) (key : String) (now : Int) : List Cmd :=
  [.incr (fixedWindowKey cfg key now), .expire (fixedWindowKey cfg key now) (2 * cfg.window)]

/-- The command sequence one `slidingWindowCheck` sends:
`ZREMRANGEBYSCORE`, `ZADD`, `ZCARD`, `EXPIRE` on the identity key. -/
def slidingWindowCmds (cfg : RateLimitConfig) (key : String) (nowNs : Int) : List Cmd :=
  [.zremrange key 0 (nowNs - cfg.window * nsPerSec), .zadd key nowNs,
   .zcard key, .expire key (2 * cfg.window)]

/-- `Interleave l1 l2 l`: `l` is an arbitrary interleaving of `l1` and `l2`
(each kept in order). -/
inductive Interleave : List Cmd → List Cmd → List Cmd → Prop
  | nil : Interleave [] [] []
  | left (c : Cmd) {l1 l2 l : List Cmd} :
      Interleave l1 l2 l → Interleave (c :: l1) l2 (c :: l)
  | right (c : Cmd) {l1 l2 l : List Cmd} :
      Interleave l1 l2 l → Interleave l1 (c :: l2) (c :: l)

/-! ### Resolution cascade (`internal/service/url_service.go`) -/

/-- `model.URLMapping`, reduced to the fields `GetOriginalURL` reads;
`expiredAt` is a Unix second (`nil` pointer = `none`). -/
structure URLMapping where
  shortCode : String
  originalURL : String
  expiredAt : Option Int
  status : Int

/-- `IsExpired`: expired when an expiry is set and `now` is strictly after
it (`time.Now().After(*u.ExpiredAt)`). -/
def URLMapping.IsExpired (u : URLMapping) (now : Int) : Bool :=
  match u.expiredAt with
  | none => false
  | some e => e < now

/-- `IsActive`: status 1 and not expired. -/
def URLMapping.IsActive (u : URLMapping) (now : Int) : Bool :=
  u.status == 1 && !(u.IsExpired now)

/-- How a lookup ends, mirroring the distinct error returns of
`GetOriginalURL`. -/
inductive LookupResult where
  | found (url : String)
  | notFound
  | inactive
  | repoErr
deriving DecidableEq

/-- The collaborators of the cascade, as response functions: the in-process
filter answer, the cache `Get` (a miss is `ok ""`, an unreachable cache is an
error — both leave `originalURL` empty in the code), and the repository
lookup. -/
structure CascadeEnv where
  bloomTest : String → Bool
  cacheGet : String → Except Unit String
  repoGet : String → Except Unit (Option URLMapping)

/-- Round-trip counters: accesses to the Resolution Cache (reads and the
re-population write) and to the durable store. -/
structure CascadeCounts where
  cacheAccesses : Nat
  repoAccesses : Nat
deriving DecidableEq

/-- `GetOriginalURL`: Bloom filter, then Redis, then MySQL, counting the
round trips to the two remote layers. A cache transport error is logged and
treated as a miss; a repository error aborts the request; an inactive
mapping is reported distinctly; a database hit repopulates the cache (one
more cache access) before returning. -/
def GetOriginalURL (env : CascadeEnv) (now : Int) (shortCode : String) :
    LookupResult × CascadeCounts :=
  if !env.bloomTest shortCode then (.notFound, ⟨0, 0⟩)
  else
    let originalURL := match env.cacheGet shortCode with
      | .ok v => v
      | .error _ => ""
    if originalURL ≠ "" then (.found originalURL, ⟨1, 0⟩)
    else
      match env.repoGet shortCode with
      | .error _ => (.repoErr, ⟨1, 1⟩)
      | .ok none => (.notFound, ⟨1, 1⟩)
      | .ok (some m) =>
        if !(m.IsActive now) then (.inactive, ⟨1, 1⟩)
        else (.found m.originalURL, ⟨2, 1⟩)

/-! ### Accessors and concrete fixtures used by the statements below -/

/-- The `allowed` component of a successful check. -/
def CheckResult.allowed? : CheckResult → Option Bool
  | .ok a _ _ => some a
  | .err => none

/-- The `resetTime` component of a successful check. -/
def CheckResult.resetAt? : CheckResult → Option Int
  | .ok _ _ t => some t
  | .err => none

/-- `SkipHealthCheck` from `ratelimit.go`: skip the health and metrics
endpoints. -/
def SkipHealthCheck (c : Request) : Bool :=
  c.path == "/health" || c.path == "/metrics"

/-- A concrete request for witnesses. -/
def reqShorten : Request :=
  { clientIP := "192.168.1.100", path := "/api/v1/shorten" }

/-- A concrete health-check request for witnesses. -/
def reqHealth : Request :=
  { clientIP := "192.168.1.100", path := "/health" }

/-- Fixed-window fixture: limit 2, window 10 s. -/
def cfgFixed : RateLimitConfig :=
  { strategy := FixedWindow, limit := 2, window := 10 }

/-- Sliding-window fixture: limit 3, window 2 s. -/
def cfgSliding : RateLimitConfig :=
  { strategy := SlidingWindow, limit := 3, window := 2 }

/-- Token-bucket fixture: limit 3, window 10 s (refill rate 0.3 tokens/s). -/
def cfgToken : RateLimitConfig :=
  { strategy := TokenBucket, limit := 3, window := 10 }

/-- An invalid configuration: non-positive limit and window. -/
def cfgInvalid : RateLimitConfig :=
  { strategy := FixedWindow, limit := -1, window := 0 }

/-- A store holding an empty token bucket for `"k"` last refilled at second
1000 (the state after three immediate checks drained the bucket). -/
def stEmptyBucket : Store :=
  { Store.empty with
    tokens := Function.update Store.empty.tokens "k:tokens" (some 0)
    lastRefill := Function.update Store.empty.lastRefill "k:last_refill" (some 1000) }

/-- A store whose timestamp log for `"k"` holds one entry at 1 s (in
nanoseconds), old enough to be purged by a check at 5 s with a 2 s window. -/
def stSliding : Store :=
  { Store.empty with
    zsets := Function.update Store.empty.zsets "k" {1000000000} }

/-- A concrete existence filter for witnesses (the hash family is arbitrary:
no theorem depends on its values). -/
def bfW : BloomFilter :=
  { nbits := 64, nhash := 3, hash := fun i s => 7 * i + s.length, bits := fun _ => false }

/-- A cascade environment whose filter rejects every key. -/
def envAbsent : CascadeEnv :=
  { bloomTest := fun _ => false
    cacheGet := fun _ => .ok ""
    repoGet := fun _ => .ok none }

/-! ## Theorems -/

/-- C1: on a store transport error during a rate-limit check — whatever the
configured strategy string, so under any of the three algorithms — the
middleware fails open: the request proceeds to the downstream handler, the
denial handler is not invoked and the chain is not aborted. (The model is a
total function, so the check also returns a well-defined outcome rather than
crashing.) -/
theorem failOpen_on_store_error (rl : RateLimiter) (c : Request) (nowNs : Int)
    (st : Store) (hskip : (rl.config.skipFunc.getD defaultSkipFunc) c = false) :
    (middlewareStep rl c nowNs st true).1.proceeded = true ∧
    (middlewareStep rl c nowNs st true).1.errorHandlerCalled = false ∧
    (middlewareStep rl c nowNs st true).1.aborted = false := by
  simp only [middlewareStep, hskip, if_false, checkRateLimit, fixedWindowCheck,
    slidingWindowCheck, tokenBucketCheck, if_true, Bool.false_eq_true]
  split <;> simp_all

theorem failOpen_on_store_error_witness :
    ((NewRateLimiter cfgFixed).config.skipFunc.getD defaultSkipFunc) reqShorten = false ∧
    (middlewareStep (NewRateLimiter cfgFixed) reqShorten 1700000000000000000 Store.empty true).1.proceeded = true := by
  refine ⟨rfl, ?_⟩
  exact (failOpen_on_store_error (NewRateLimiter cfgFixed) reqShorten
    1700000000000000000 Store.empty rfl).1

/-- C7: when the existence filter answers definitely-absent, `GetOriginalURL`
returns not-found with zero cache accesses and zero durable-store accesses. -/
theorem cascade_absent_short_circuit (env : CascadeEnv) (now : Int) (code : String)
    (h : env.bloomTest code = false) :
    GetOriginalURL env now code = (.notFound, ⟨0, 0⟩) := by
  simp [GetOriginalURL, h]

theorem cascade_absent_short_circuit_witness :
    envAbsent.bloomTest "abc123" = false ∧
    GetOriginalURL envAbsent 1700000000 "abc123" = (.notFound, ⟨0, 0⟩) :=
  ⟨rfl, cascade_absent_short_circuit envAbsent 1700000000 "abc123" rfl⟩

/-- C8: requests for which the skip predicate returns true never reach
`checkRateLimit` (each outcome records `checked = false`) and leave the whole
store — counters, timestamp logs, token-bucket scalars and TTLs alike —
exactly as it was, for any number of such requests. -/
theorem skip_requests_touch_nothing (rl : RateLimiter)
    (reqs : List (Request × Int × Bool)) (st : Store)
    (h : ∀ r ∈ reqs, (rl.config.skipFunc.getD defaultSkipFunc) r.1 = true) :
    (runMiddleware rl reqs st).2 = st ∧
    ∀ o ∈ (runMiddleware rl reqs st).1, o.checked = false := by
  induction reqs generalizing st with
  | nil => simp [runMiddleware]
  | cons r rest ih =>
    obtain ⟨c, now, e⟩ := r
    have hc := h _ (List.mem_cons_self _ _)
    have hrest := fun r hr => h r (List.mem_cons_of_mem _ hr)
    have hstep : middlewareStep rl c now st e =
        ({ checked := false, proceeded := true, errorHandlerCalled := false,
           aborted := false, headers := none, retryAfter := none }, st) := by
      simp [middlewareStep, hc]
    obtain ⟨ih1, ih2⟩ := ih st hrest
    constructor
    · simp only [runMiddleware, hstep, ih1]
    · intro o ho
      simp only [runMiddleware, hstep] at ho
      rcases List.mem_cons.mp ho with h1 | h2
      · simp [h1]
      · exact ih2 o h2

theorem skip_requests_touch_nothing_witness :
    (∀ r ∈ [(reqHealth, (1700000000000000000 : Int), false), (reqHealth, (1700000000100000000 : Int), true)],
      ((NewRateLimiter { cfgFixed with skipFunc := some SkipHealthCheck }).config.skipFunc.getD defaultSkipFunc) r.1 = true) ∧
    (runMiddleware (NewRateLimiter { cfgFixed with skipFunc := some SkipHealthCheck })
      [(reqHealth, 1700000000000000000, false), (reqHealth, 1700000000100000000, true)] Store.empty).2 = Store.empty := by
  refine ⟨?_, ?_⟩
  · decide
  · exact (skip_requests_touch_nothing _ _ Store.empty (by decide)).1

/-- C5 counterexample: constructing a limiter from an invalid configuration
(limit −1, window 0) does not fail and does not prevent use — `NewRateLimiter`
returns a limiter carrying the invalid values unchanged, and a subsequent
fixed-window check on it still returns a well-defined (denied) result. -/
theorem newRateLimiter_accepts_invalid_config :
    (NewRateLimiter cfgInvalid).config.limit = -1 ∧
    (NewRateLimiter cfgInvalid).config.window = 0 ∧
    (fixedWindowCheck (NewRateLimiter cfgInvalid).config "k" 5 Store.empty false).1
      = .ok false 0 5 := by
  refine ⟨rfl, rfl, ?_⟩
  decide

/-- C5 (amended): `NewRateLimiter` performs no validation at all — it accepts
any configuration, including non-positive limit or window, preserves the
numeric fields, only fills in defaults for absent strategy functions, and the
resulting limiter remains usable with defined behavior (with a non-positive
limit every fixed-window check simply reports denied, since the incremented
count is at least 1). -/
theorem newRateLimiter_no_validation (c : RateLimitConfig) :
    (NewRateLimiter c).config.strategy = c.strategy ∧
    (NewRateLimiter c).config.limit = c.limit ∧
    (NewRateLimiter c).config.window = c.window ∧
    (NewRateLimiter c).config.keyFunc = some (c.keyFunc.getD defaultKeyFunc) ∧
    (NewRateLimiter c).config.errorHandler = some (c.errorHandler.getD defaultErrorHandler) ∧
    (NewRateLimiter c).config.skipFunc = some (c.skipFunc.getD defaultSkipFunc) ∧
    (c.limit ≤ 0 → ∀ key now st,
      (fixedWindowCheck (NewRateLimiter c).config key now st false).1.allowed? = some false) := by
  refine ⟨rfl, rfl, rfl, rfl, rfl, rfl, fun hl key now st => ?_⟩
  simp only [fixedWindowCheck, CheckResult.allowed?, if_false, Bool.false_eq_true,
    Option.some.injEq]
  rw [decide_eq_false_iff_not]
  have hlim : (NewRateLimiter c).config.limit = c.limit := rfl
  rw [hlim]
  push_cast
  omega

theorem newRateLimiter_no_validation_witness :
    cfgInvalid.limit ≤ 0 ∧
    (fixedWindowCheck (NewRateLimiter cfgInvalid).config "k" 5 Store.empty false).1.allowed?
      = some false :=
  ⟨by decide,
   (newRateLimiter_no_validation cfgInvalid).2.2.2.2.2.2 (by decide) "k" 5 Store.empty⟩

/-! ### Existence filter lemmas (C6) -/

theorem filterLE_refl (b : BloomFilter) : FilterLE b b :=
  ⟨rfl, rfl, rfl, fun _ h => h⟩

theorem filterLE_trans {b1 b2 b3 : BloomFilter} (h12 : FilterLE b1 b2)
    (h23 : FilterLE b2 b3) : FilterLE b1 b3 :=
  ⟨h12.1.trans h23.1, h12.2.1.trans h23.2.1, h12.2.2.1.trans h23.2.2.1,
   fun j h => h23.2.2.2 j (h12.2.2.2 j h)⟩

theorem add_filterLE (bf : BloomFilter) (k : String) : FilterLE bf (bf.Add k) :=
  ⟨rfl, rfl, rfl, fun j h => by simp [BloomFilter.Add, h]⟩

theorem addBatch_filterLE (ks : List String) : ∀ bf : BloomFilter,
    FilterLE bf (bf.AddBatch ks) := by
  induction ks with
  | nil => exact fun bf => filterLE_refl bf
  | cons a rest ih =>
    intro bf
    exact filterLE_trans (add_filterLE bf a) (ih (bf.Add a))

theorem positions_eq_of_filterLE {b1 b2 : BloomFilter} (h : FilterLE b1 b2)
    (k : String) : b1.positions k = b2.positions k := by
  simp [BloomFilter.positions, h.1, h.2.1, h.2.2.1]

theorem test_mono {b1 b2 : BloomFilter} (h : FilterLE b1 b2) (k : String)
    (ht : b1.Test k = true) : b2.Test k = true := by
  simp only [BloomFilter.Test, List.all_eq_true] at ht ⊢
  intro j hj
  rw [← positions_eq_of_filterLE h] at hj
  exact h.2.2.2 j (ht j hj)

theorem test_add_self (bf : BloomFilter) (k : String) : (bf.Add k).Test k = true := by
  simp only [BloomFilter.Test, List.all_eq_true]
  intro j hj
  have hpos : (bf.Add k).positions k = bf.positions k :=
    (positions_eq_of_filterLE (add_filterLE bf k) k).symm
  rw [hpos] at hj
  simp only [BloomFilter.Add, Bool.or_eq_true]
  exact Or.inr (List.elem_iff.mpr hj)

theorem test_addBatch_self (ks : List String) : ∀ (bf : BloomFilter) (k : String),
    k ∈ ks → (bf.AddBatch ks).Test k = true := by
  induction ks with
  | nil => intro bf k h; cases h
  | cons a rest ih =>
    intro bf k h
    have hfold : bf.AddBatch (a :: rest) = (bf.Add a).AddBatch rest := rfl
    rw [hfold]
    rcases List.mem_cons.mp h with rfl | hmem
    · exact test_mono (addBatch_filterLE rest (bf.Add k)) k (test_add_self bf k)
    · exact ih (bf.Add a) k hmem

theorem runFilterOps_filterLE (ops : List FilterOp) : ∀ bf : BloomFilter,
    (∀ op ∈ ops, op ≠ FilterOp.clear) → FilterLE bf (runFilterOps bf ops) := by
  induction ops with
  | nil => exact fun bf _ => filterLE_refl bf
  | cons op rest ih =>
    intro bf h
    have hstep : FilterLE bf (applyFilterOp bf op) := by
      match op with
      | .add k => exact add_filterLE bf k
      | .addBatch ks => exact addBatch_filterLE ks bf
      | .clear => exact absurd rfl (h _ (List.mem_cons_self _ _))
    have hrest := ih (applyFilterOp bf op) (fun o ho => h o (List.mem_cons_of_mem _ ho))
    exact filterLE_trans hstep hrest

/-- C6: over any history of `Add`/`AddBatch`/`Test` operations containing no
`Clear`, once a key was added, every later `Test` of that key answers
possibly-present: the filter never produces a false negative. -/
theorem bloom_no_false_negatives (bf : BloomFilter) (ops : List FilterOp) (k : String)
    (hclear : ∀ op ∈ ops, op ≠ FilterOp.clear)
    (hadd : ∃ op ∈ ops, addsKey k op) :
    (runFilterOps bf ops).Test k = true := by
  obtain ⟨op, hop, hk⟩ := hadd
  obtain ⟨pre, post, rfl⟩ := List.append_of_mem hop
  have hsplit : runFilterOps bf (pre ++ op :: post) =
      runFilterOps (applyFilterOp (runFilterOps bf pre) op) post := by
    simp [runFilterOps, List.foldl_append]
  rw [hsplit]
  have h1 : (applyFilterOp (runFilterOps bf pre) op).Test k = true := by
    match op, hk with
    | .add k2, hk =>
      cases hk
      exact test_add_self _ k
    | .addBatch ks, hk =>
      exact test_addBatch_self ks _ k hk
  have hpost : ∀ o ∈ post, o ≠ FilterOp.clear := fun o ho =>
    hclear o (List.mem_append_right _ (List.mem_cons_of_mem _ ho))
  exact test_mono (runFilterOps_filterLE post _ hpost) k h1

theorem bloom_no_false_negatives_witness :
    (∀ op ∈ [FilterOp.add "abc", FilterOp.addBatch ["u7", "Zz"]], op ≠ FilterOp.clear) ∧
    (runFilterOps bfW [FilterOp.add "abc", FilterOp.addBatch ["u7", "Zz"]]).Test "abc" = true :=
  ⟨by decide,
   bloom_no_false_negatives bfW _ "abc" (by decide) ⟨FilterOp.add "abc", by simp, rfl⟩⟩

/-! ### Token bucket reset time (C4) -/

/-- C4 counterexample: with limit 3 and window 10 s (refill rate 0.3/s) and an
empty bucket, the code returns `resetAt = now + 3` — the *truncation* of
`(1 − tokens)/refillRate = 10/3` — while the claimed ceiling formula gives
`now + 4`. -/
theorem tokenBucket_resetAt_not_ceiling :
    (tokenBucketCheck cfgToken "k" 1000 stEmptyBucket false).1.resetAt? = some 1003 ∧
    tokensAfterCheck cfgToken "k" 1000 stEmptyBucket = 0 ∧
    1000 + ⌈((1 : ℚ) - tokensAfterCheck cfgToken "k" 1000 stEmptyBucket)
        / ((cfgToken.limit : ℚ) / (cfgToken.window : ℚ))⌉ = (1004 : Int) ∧
    (1003 : Int) ≠ 1004 := by
  have h1 : (stEmptyBucket.tokens ("k" ++ ":tokens")).getD ((cfgToken.limit : Int) : ℚ) = 0 := by
    decide
  have h2 : (stEmptyBucket.lastRefill ("k" ++ ":last_refill")).getD 1000 = 1000 := by
    decide
  have hceil : ⌈((10 : ℚ) / 3)⌉ = 4 := by
    rw [Int.ceil_eq_iff]
    constructor <;> norm_num
  have hA : tokensAfterCheck cfgToken "k" 1000 stEmptyBucket = 0 := by
    simp only [tokensAfterCheck, h1, h2]
    norm_num [cfgToken]
  refine ⟨?_, hA, ?_, by norm_num⟩
  · simp only [tokenBucketCheck, h1, h2, CheckResult.resetAt?]
    norm_num [cfgToken, truncToZero]
  · rw [hA]
    norm_num [cfgToken]
    rw [hceil]
    norm_num

/-- The reset-time branch of `tokenBucketCheck`, rewritten from the code
branch on `tokens < 1` into its contrapositive with truncation replaced by
floor (the argument is nonnegative when the branch is taken). -/
theorem resetTime_branch (now : Int) (T rate : ℚ) (hrate : 0 < rate) :
    (if T < 1 then now + truncToZero ((1 - T) / rate) else now)
      = if 1 ≤ T then now else now + ⌊(1 - T) / rate⌋ := by
  by_cases h : 1 ≤ T
  · rw [if_neg (not_lt.mpr h), if_pos h]
  · rw [if_pos (not_le.mp h), if_neg h, truncToZero,
      if_pos (div_nonneg (by linarith [not_le.mp h]) hrate.le)]

/-- C4 (amended): for a positive limit and window, the reset time is `now`
when at least one token remains after the check, and otherwise
`now + ⌊(1 − tokens)/refillRate⌋` — the floor (Go `int64` truncation of a
positive value), not the ceiling, of the time until one token is available. -/
theorem tokenBucket_resetAt_floor (cfg : RateLimitConfig) (key : String)
    (now : Int) (st : Store) (hL : 0 < cfg.limit) (hW : 0 < cfg.window) :
    (tokenBucketCheck cfg key now st false).1.resetAt? =
      some (if (1 : ℚ) ≤ tokensAfterCheck cfg key now st then now
            else now + ⌊((1 : ℚ) - tokensAfterCheck cfg key now st)
                / ((cfg.limit : ℚ) / (cfg.window : ℚ))⌋) := by
  have hrate : (0 : ℚ) < (cfg.limit : ℚ) / (cfg.window : ℚ) := by
    apply div_pos <;> exact_mod_cast (by assumption)
  simp only [tokenBucketCheck, if_false, tokensAfterCheck, CheckResult.resetAt?,
    Bool.false_eq_true, decide_eq_true_eq, Option.some.injEq]
  exact resetTime_branch now _ _ hrate

theorem tokenBucket_resetAt_floor_witness :
    0 < cfgToken.limit ∧ 0 < cfgToken.window ∧
    (tokenBucketCheck cfgToken "k" 1000 stEmptyBucket false).1.resetAt? =
      some (if (1 : ℚ) ≤ tokensAfterCheck cfgToken "k" 1000 stEmptyBucket then 1000
            else 1000 + ⌊((1 : ℚ) - tokensAfterCheck cfgToken "k" 1000 stEmptyBucket)
                / ((cfgToken.limit : ℚ) / (cfgToken.window : ℚ))⌋) :=
  ⟨by decide, by decide,
   tokenBucket_resetAt_floor cfgToken "k" 1000 stEmptyBucket (by decide) (by decide)⟩

/-! ### Fixed window (C2) -/

/-- For windows that divide the Go zero-time offset — which includes every
whole-second window of practical interest (1 s, 60 s, 1 h, …) — Go's
truncation coincides with truncation relative to the Unix epoch. -/
theorem truncateUnix_eq_mul_ediv (now W : Int) (hW : 0 < W)
    (hdvd : goZeroGap % W = 0) : truncateUnix now W = W * (now / W) := by
  obtain ⟨k, hk⟩ := Int.dvd_of_emod_eq_zero hdvd
  rw [truncateUnix, if_neg (not_le.mpr hW), hk, mul_comm W k,
    Int.add_mul_ediv_right _ _ (ne_of_gt hW)]
  ring

/-- Each fixed-window check whose time falls in bucket key `b` increments the
counter at `b` by exactly one, so a run of checks adds their number. -/
theorem runFixedChecks_counter (cfg : RateLimitConfig) (key : String)
    (ts : List Int) (b : String) : ∀ st : Store,
    (∀ t ∈ ts, fixedWindowKey cfg key t = b) →
    (runFixedChecks cfg key ts st).counters b = st.counters b + ts.length := by
  induction ts with
  | nil => intro st _; simp [runFixedChecks]
  | cons t rest ih =>
    intro st hkeys
    have hkey : fixedWindowKey cfg key t = b := hkeys t (List.mem_cons_self _ _)
    have hrest : ∀ t2 ∈ rest, fixedWindowKey cfg key t2 = b := fun t2 h2 =>
      hkeys t2 (List.mem_cons_of_mem _ h2)
    have hstep : ((fixedWindowCheck cfg key t st false).2).counters b =
        st.counters b + 1 := by
      simp [fixedWindowCheck, hkey, Function.update_same]
    rw [runFixedChecks, ih _ hrest, hstep]
    simp only [List.length_cons]
    omega

/-- C2: a fixed-window check at `now` truncates `now` to the window duration
to obtain the bucket start (for every deployable window this is
`window * (now / window)`), increments the counter at `identity:bucketStart`
by one with its expiry set to `2×window` in the same pipeline, and returns
`allowed = (count ≤ limit)`, `remaining = max 0 (limit − count)` and
`resetAt = bucketStart + window`; consequently, starting from a fresh bucket,
after exactly `limit` checks inside one bucket the next check in the same
bucket is denied. -/
theorem fixedWindow_spec (cfg : RateLimitConfig) (key : String) (now : Int)
    (st : Store) (hW : 0 < cfg.window) :
    (fixedWindowCheck cfg key now st false =
      (.ok (decide ((st.counters (fixedWindowKey cfg key now) + 1 : Int) ≤ cfg.limit))
        (max 0 (cfg.limit - (st.counters (fixedWindowKey cfg key now) + 1)))
        (truncateUnix now cfg.window + cfg.window),
       { st with
         counters := Function.update st.counters (fixedWindowKey cfg key now)
           (st.counters (fixedWindowKey cfg key now) + 1)
         ttl := Function.update st.ttl (fixedWindowKey cfg key now)
           (some (2 * cfg.window)) })) ∧
    (goZeroGap % cfg.window = 0 →
      truncateUnix now cfg.window = cfg.window * (now / cfg.window)) ∧
    (∀ (ts : List Int) (t2 : Int),
      (∀ t ∈ ts, truncateUnix t cfg.window = truncateUnix t2 cfg.window) →
      (ts.length : Int) = cfg.limit →
      st.counters (fixedWindowKey cfg key t2) = 0 →
      (fixedWindowCheck cfg key t2 (runFixedChecks cfg key ts st) false).1.allowed?
        = some false) := by
  refine ⟨rfl, fun hdvd => truncateUnix_eq_mul_ediv now cfg.window hW hdvd, ?_⟩
  intro ts t2 hbucket hlen hzero
  have hkeys : ∀ t ∈ ts, fixedWindowKey cfg key t = fixedWindowKey cfg key t2 := by
    intro t ht
    simp [fixedWindowKey, hbucket t ht]
  have hcount := runFixedChecks_counter cfg key ts (fixedWindowKey cfg key t2) st hkeys
  rw [hzero, Nat.zero_add] at hcount
  simp only [fixedWindowCheck, CheckResult.allowed?, if_false, Bool.false_eq_true,
    Option.some.injEq, hcount]
  rw [decide_eq_false_iff_not]
  push_cast
  omega

theorem fixedWindow_spec_witness :
    0 < cfgFixed.window ∧
    (fixedWindowCheck cfgFixed "k" 8 (runFixedChecks cfgFixed "k" [2, 5] Store.empty) false).1.allowed?
      = some false := by
  refine ⟨by decide, ?_⟩
  exact (fixedWindow_spec cfgFixed "k" 8 Store.empty (by decide)).2.2 [2, 5] 8
    (by decide) (by decide) rfl

/-! ### Sliding window (C3) -/

/-- C3: a sliding-window check at `now` purges every logged entry older than
`now − window` before the cardinality is read (the pipeline removes the whole
closed range `[0, now − window]` first), inserts an entry for `now`, returns
`allowed = (cardinality ≤ limit)`, `remaining = max 0 (limit − cardinality)`
and `resetAt = now + window` (reported in Unix seconds), and afterwards every
retained entry lies within `[now − window, now]`. The two premises on the
prior log — entries are nonnegative and not in the future — hold of every
log the code can build, since entries are only ever inserted as the current
nanosecond time. -/
theorem slidingWindow_spec (cfg : RateLimitConfig) (key : String) (nowNs : Int)
    (st : Store) (hW : 0 < cfg.window)
    (hpos : ∀ t ∈ st.zsets key, 0 ≤ t) (hpast : ∀ t ∈ st.zsets key, t ≤ nowNs) :
    (∀ t ∈ st.zsets key, t < nowNs - cfg.window * nsPerSec →
      t ∉ (slidingWindowCheck cfg key nowNs st false).2.zsets key) ∧
    nowNs ∈ (slidingWindowCheck cfg key nowNs st false).2.zsets key ∧
    ((slidingWindowCheck cfg key nowNs st false).1 =
      .ok (decide ((((slidingWindowCheck cfg key nowNs st false).2.zsets key).card : Int) ≤ cfg.limit))
        (max 0 (cfg.limit - ((slidingWindowCheck cfg key nowNs st false).2.zsets key).card))
        ((nowNs + cfg.window * nsPerSec) / nsPerSec)) ∧
    (∀ t ∈ (slidingWindowCheck cfg key nowNs st false).2.zsets key,
      nowNs - cfg.window * nsPerSec ≤ t ∧ t ≤ nowNs) := by
  have hwns : 0 < cfg.window * nsPerSec := by
    apply mul_pos hW
    norm_num [nsPerSec]
  have hzs : (slidingWindowCheck cfg key nowNs st false).2.zsets key =
      insert nowNs ((st.zsets key).filter
        fun t => ¬(0 ≤ t ∧ t ≤ nowNs - cfg.window * nsPerSec)) := by
    simp [slidingWindowCheck, Function.update_same]
  refine ⟨?_, ?_, ?_, ?_⟩
  · intro t ht hold
    rw [hzs, Finset.mem_insert]
    rintro (rfl | hmem)
    · omega
    · rw [Finset.mem_filter] at hmem
      exact hmem.2 ⟨hpos t ht, by omega⟩
  · rw [hzs]
    exact Finset.mem_insert_self _ _
  · simp [slidingWindowCheck, Function.update_same]
  · intro t ht
    rw [hzs, Finset.mem_insert] at ht
    rcases ht with rfl | hmem
    · omega
    · rw [Finset.mem_filter] at hmem
      have h0 := hpos t hmem.1
      have hn := hpast t hmem.1
      constructor
      · by_contra hc
        exact hmem.2 ⟨h0, by omega⟩
      · exact hn

theorem slidingWindow_spec_witness :
    0 < cfgSliding.window ∧
    (∀ t ∈ stSliding.zsets "k", 0 ≤ t) ∧
    (∀ t ∈ stSliding.zsets "k", t ≤ (5000000000 : Int)) ∧
    (5000000000 : Int) ∈ (slidingWindowCheck cfgSliding "k" 5000000000 stSliding false).2.zsets "k" :=
  ⟨by decide, by decide, by decide,
   (slidingWindow_spec cfgSliding "k" 5000000000 stSliding (by decide) (by decide)
     (by decide)).2.1⟩

/-! ### Concurrent checks over the atomic store commands (C9) -/

theorem interleave_perm {l1 l2 l : List Cmd} (h : Interleave l1 l2 l) :
    (l1 ++ l2).Perm l := by
  induction h with
  | nil => exact List.Perm.refl _
  | left c _ ih => exact ih.cons c
  | right c _ ih => exact List.perm_middle.trans (ih.cons c)

theorem interleave_append (l1 l2 : List Cmd) : Interleave l1 l2 (l1 ++ l2) := by
  induction l1 with
  | nil =>
    simp only [List.nil_append]
    induction l2 with
    | nil => exact .nil
    | cons c rest ih => exact .right c ih
  | cons c rest ih => exact .left c ih

/-- Ordered-set commands never touch counters; `incr` on another key never
touches this one: the final counter value is the initial one plus the number
of `incr` commands addressed to it, whatever the order. -/
theorem applyCmds_counters (k : String) : ∀ (l : List Cmd) (st : Store),
    (applyCmds st l).counters k = st.counters k + l.count (Cmd.incr k) := by
  intro l
  induction l with
  | nil => intro st; simp [applyCmds]
  | cons c rest ih =>
    intro st
    rw [applyCmds, ih]
    match c with
    | .incr k2 =>
      by_cases hk : k = k2
      · subst hk
        rw [List.count_cons_self]
        have hupd : (applyCmd st (Cmd.incr k)).counters k = st.counters k + 1 := by
          simp [applyCmd, Function.update_same]
        rw [hupd]
        omega
      · have hne : Cmd.incr k ≠ Cmd.incr k2 := fun h => hk (by injection h)
        rw [List.count_cons_of_ne hne]
        have hupd : (applyCmd st (Cmd.incr k2)).counters k = st.counters k := by
          simp [applyCmd, Function.update_noteq hk]
        rw [hupd]
    | .expire k2 d =>
      rw [List.count_cons_of_ne (fun h => Cmd.noConfusion h)]
      rfl
    | .zremrange k2 lo hi =>
      rw [List.count_cons_of_ne (fun h => Cmd.noConfusion h)]
      rfl
    | .zadd k2 t =>
      rw [List.count_cons_of_ne (fun h => Cmd.noConfusion h)]
      rfl
    | .zcard k2 =>
      rw [List.count_cons_of_ne (fun h => Cmd.noConfusion h)]
      rfl

/-- A timestamp that some `zadd` in the sequence inserts (or that is already
present) survives to the end, provided every range removal on its key stops
strictly below it. -/
theorem zadd_survives (k : String) (x : Int) : ∀ (l : List Cmd) (st : Store),
    (∀ lo hi, Cmd.zremrange k lo hi ∈ l → hi < x) →
    (x ∈ st.zsets k ∨ Cmd.zadd k x ∈ l) →
    x ∈ (applyCmds st l).zsets k := by
  intro l
  induction l with
  | nil =>
    intro st _ h
    rcases h with h | h
    · exact h
    · cases h
  | cons c rest ih =>
    intro st hsafe hx
    rw [applyCmds]
    have hsafe2 : ∀ lo hi, Cmd.zremrange k lo hi ∈ rest → hi < x := fun lo hi h =>
      hsafe lo hi (List.mem_cons_of_mem _ h)
    apply ih (applyCmd st c) hsafe2
    rcases hx with hmem | hadd
    · left
      match c with
      | .incr k2 => exact hmem
      | .expire k2 d => exact hmem
      | .zcard k2 => exact hmem
      | .zadd k2 t =>
        by_cases hk : k = k2
        · subst hk
          simp only [applyCmd, Function.update_same]
          exact Finset.mem_insert_of_mem hmem
        · simpa only [applyCmd, Function.update_noteq hk] using hmem
      | .zremrange k2 lo hi =>
        by_cases hk : k = k2
        · subst hk
          have hhi : hi < x := hsafe lo hi (List.mem_cons_self _ _)
          simp only [applyCmd, Function.update_same, Finset.mem_filter]
          exact ⟨hmem, by omega⟩
        · simpa only [applyCmd, Function.update_noteq hk] using hmem
    · rcases List.mem_cons.mp hadd with heq | hrest
      · left
        rw [← heq]
        simp only [applyCmd, Function.update_same]
        exact Finset.mem_insert_self _ _
      · right
        exact hrest

/-- C9: for any interleaving of the atomic store commands of two concurrent
checks against the same identity, neither update is lost. Fixed window: the
per-bucket counter ends up incremented by both checks (when the two times
share a bucket, both `INCR`s hit the same key). Sliding window: the
timestamp log ends up containing both inserted entries (the purge bound of
each check, `now − window`, lies strictly below the other check's timestamp
whenever the two run within one window of each other). -/
theorem concurrent_checks_no_lost_updates (cfg : RateLimitConfig) (key : String)
    (st : Store) :
    (∀ t1 t2 l, truncateUnix t1 cfg.window = truncateUnix t2 cfg.window →
      Interleave (fixedWindowCmds cfg key t1) (fixedWindowCmds cfg key t2) l →
      (applyCmds st l).counters (fixedWindowKey cfg key t1)
        = st.counters (fixedWindowKey cfg key t1) + 2) ∧
    (∀ n1 n2 l, n2 - cfg.window * nsPerSec < n1 → n1 - cfg.window * nsPerSec < n2 →
      Interleave (slidingWindowCmds cfg key n1) (slidingWindowCmds cfg key n2) l →
      n1 ∈ (applyCmds st l).zsets key ∧ n2 ∈ (applyCmds st l).zsets key) := by
  constructor
  · intro t1 t2 l hsame hint
    have hkey : fixedWindowKey cfg key t2 = fixedWindowKey cfg key t1 := by
      simp [fixedWindowKey, hsame]
    have hperm := interleave_perm hint
    have hcnt := hperm.count_eq (Cmd.incr (fixedWindowKey cfg key t1))
    rw [applyCmds_counters, ← hcnt]
    simp [fixedWindowCmds, List.count_append, List.count_cons, hkey]
  · intro n1 n2 l h21 h12 hint
    have hperm := interleave_perm hint
    have hmem : ∀ c, c ∈ l ↔ c ∈ slidingWindowCmds cfg key n1 ++ slidingWindowCmds cfg key n2 :=
      fun c => (hperm.mem_iff).symm
    have hrem : ∀ lo hi, Cmd.zremrange key lo hi ∈ l →
        hi = n1 - cfg.window * nsPerSec ∨ hi = n2 - cfg.window * nsPerSec := by
      intro lo hi h
      rw [hmem] at h
      simp [slidingWindowCmds, Cmd.zremrange.injEq] at h
      tauto
    constructor
    · apply zadd_survives key n1 l st
      · intro lo hi h
        rcases hrem lo hi h with rfl | rfl <;> omega
      · right
        rw [hmem]
        simp [slidingWindowCmds]
    · apply zadd_survives key n2 l st
      · intro lo hi h
        rcases hrem lo hi h with rfl | rfl <;> omega
      · right
        rw [hmem]
        simp [slidingWindowCmds]

theorem concurrent_checks_no_lost_updates_witness :
    ((applyCmds Store.empty
        (fixedWindowCmds cfgFixed "k" 3 ++ fixedWindowCmds cfgFixed "k" 7)).counters
        (fixedWindowKey cfgFixed "k" 3)
      = Store.empty.counters (fixedWindowKey cfgFixed "k" 3) + 2) ∧
    ((0 : Int) ∈ (applyCmds Store.empty
        (slidingWindowCmds cfgSliding "k" 0 ++ slidingWindowCmds cfgSliding "k" 1)).zsets "k" ∧
     (1 : Int) ∈ (applyCmds Store.empty
        (slidingWindowCmds cfgSliding "k" 0 ++ slidingWindowCmds cfgSliding "k" 1)).zsets "k") :=
  ⟨(concurrent_checks_no_lost_updates cfgFixed "k" Store.empty).1 3 7 _ (by decide)
      (interleave_append _ _),
   (concurrent_checks_no_lost_updates cfgSliding "k" Store.empty).2 0 1 _ (by decide)
      (by decide) (interleave_append _ _)⟩

/-! ### Base62 round trip (C10) -/

theorem encodeDigitsF_stable : ∀ n f1 f2 : Nat, n ≤ f1 → n ≤ f2 →
    encodeDigitsF f1 n = encodeDigitsF f2 n := by
  intro n
  induction n using Nat.strong_induction_on with
  | _ n ih =>
    intro f1 f2 h1 h2
    cases n with
    | zero => cases f1 <;> cases f2 <;> rfl
    | succ m =>
      cases f1 with
      | zero => omega
      | succ a =>
        cases f2 with
        | zero => omega
        | succ b =>
          simp only [encodeDigitsF]
          congr 1
          have hdiv : (m + 1) / 62 < m + 1 := Nat.div_lt_self (Nat.succ_pos m) (by norm_num)
          exact ih _ hdiv a b (by omega) (by omega)

theorem encodeLoop_eq {n : Nat} (h : n ≠ 0) :
    encodeLoop n = base62Chars.getD (n % 62) ' ' :: encodeLoop (n / 62) := by
  obtain ⟨m, rfl⟩ : ∃ m, n = m + 1 := ⟨n - 1, by omega⟩
  show encodeDigitsF (m + 1) (m + 1) = _
  simp only [encodeDigitsF]
  congr 1
  have hdiv : (m + 1) / 62 < m + 1 := Nat.div_lt_self (Nat.succ_pos m) (by norm_num)
  exact encodeDigitsF_stable _ _ _ (by omega) (le_refl _)

theorem wrap64_eq_self {x : Int} (h0 : -(2 ^ 63) ≤ x) (h1 : x < 2 ^ 63) :
    wrap64 x = x := by
  rw [wrap64, Int.emod_eq_of_lt (by omega) (by omega)]
  omega

theorem charValue_base62 : ∀ d : Fin 62,
    charValue (base62Chars.getD (d : Nat) ' ') = some ((d : Nat) : Int) := by
  decide

theorem encodeLoop_valid : ∀ n : Nat, ∀ c ∈ encodeLoop n, (charValue c).isSome := by
  intro n
  induction n using Nat.strong_induction_on with
  | _ n ih =>
    intro c hc
    by_cases h : n = 0
    · subst h
      cases hc
    · rw [encodeLoop_eq h] at hc
      rcases List.mem_cons.mp hc with rfl | hmem
      · have hcv : charValue (base62Chars.getD (n % 62) ' ') = some ((n % 62 : Nat) : Int) :=
          charValue_base62 ⟨n % 62, Nat.mod_lt _ (by norm_num)⟩
        rw [hcv]
        rfl
      · exact ih (n / 62) (Nat.div_lt_self (Nat.pos_of_ne_zero h) (by norm_num)) c hmem

theorem decodeLoop_append : ∀ (xs ys : List Char) (acc : Int),
    (∀ c ∈ xs, (charValue c).isSome) →
    decodeLoop (xs ++ ys) acc = decodeLoop ys (decodeLoop xs acc) := by
  intro xs
  induction xs with
  | nil => intro ys acc _; rfl
  | cons c rest ih =>
    intro ys acc h
    obtain ⟨v, hv⟩ := Option.isSome_iff_exists.mp (h c (List.mem_cons_self _ _))
    simp only [List.cons_append, decodeLoop, hv]
    exact ih ys _ (fun c2 h2 => h c2 (List.mem_cons_of_mem _ h2))

/-- Decoding inverts encoding on natural numbers below `2^63`: every
intermediate accumulator stays in `int64` range, so Go's wrap-around never
fires. -/
theorem decodeLoop_encodeLoop : ∀ n : Nat, n < 2 ^ 63 →
    decodeLoop (encodeLoop n).reverse 0 = (n : Int) := by
  intro n
  induction n using Nat.strong_induction_on with
  | _ n ih =>
    intro hn
    by_cases h : n = 0
    · subst h
      rfl
    · rw [encodeLoop_eq h, List.reverse_cons,
        decodeLoop_append _ _ _ (fun c hc => encodeLoop_valid (n / 62) c (List.mem_reverse.mp hc)),
        ih (n / 62) (Nat.div_lt_self (Nat.pos_of_ne_zero h) (by norm_num))
          (lt_of_le_of_lt (Nat.div_le_self _ _) hn)]
      have hcv : charValue (base62Chars.getD (n % 62) ' ') = some ((n % 62 : Nat) : Int) :=
        charValue_base62 ⟨n % 62, Nat.mod_lt _ (by norm_num)⟩
      simp only [decodeLoop, hcv]
      have harith : ((n / 62 : Nat) : Int) * 62 + ((n % 62 : Nat) : Int) = (n : Int) := by
        push_cast
        omega
      rw [harith, wrap64_eq_self (by omega) (by omega)]

/-- Left-inverse form of C10, used for both conjuncts of the claim. -/
theorem base62_left_inverse (n : Int) (h0 : 0 ≤ n) (h1 : n < 2 ^ 63) :
    DecodeBase62 (EncodeBase62 n) = n := by
  by_cases h : n = 0
  · subst h
    decide
  · rw [EncodeBase62, if_neg h, DecodeBase62]
    show decodeLoop (encodeLoop n.toNat).reverse 0 = n
    rw [decodeLoop_encodeLoop _ (by omega)]
    omega

/-- C10: for every non-negative `int64` value `n` (i.e. `0 ≤ n < 2^63`),
`DecodeBase62 (EncodeBase62 n) = n`; hence the encoding is injective on
non-negative inputs and reversible. -/
theorem base62_roundtrip (n : Int) (h0 : 0 ≤ n) (h1 : n < 2 ^ 63) :
    DecodeBase62 (EncodeBase62 n) = n ∧
    ∀ m : Int, 0 ≤ m → m < 2 ^ 63 → EncodeBase62 m = EncodeBase62 n → m = n := by
  refine ⟨base62_left_inverse n h0 h1, fun m hm0 hm1 heq => ?_⟩
  rw [← base62_left_inverse m hm0 hm1, heq, base62_left_inverse n h0 h1]

theorem base62_roundtrip_witness :
    0 ≤ (12345 : Int) ∧ (12345 : Int) < 2 ^ 63 ∧
    DecodeBase62 (EncodeBase62 12345) = 12345 :=
  ⟨by decide, by decide, (base62_roundtrip 12345 (by decide) (by decide)).1⟩

end ShortLink
